import Mathlib

/-!
Verification of the OpenCoop integrity/concurrency core against its
specification.  The definitions below are shallow embeddings of the
TypeScript source:

* canonical JSON encoder `stableStringify` (eventlog service and
  idempotency middleware — the two copies are textually identical);
* hash-chained event ledger `appendEvent` / `verifyHashChain`
  (eventlog service), with SHA-256 abstracted as a parameter
  `H : String → String`;
* bounded retry loop of `appendEvent` and its conflict detector
  `isAggregateVersionConflict`;
* the idempotency gate's dispatch on an existing record
  (middleware/idempotency.ts, `handleIdempotency`);
* the job claim registry `claimJob` (jobboard service) over an explicit
  Redis-like state;
* the settlement engine `settlePayment` (escrow service) with its write
  sequence made explicit;
* the order state machine's transition table and the status-mutating
  operations of the order service.

JavaScript `Math.floor` on integer-valued arithmetic is modelled with
`Int.fdiv` (floor division); JSON values reachable from `JSON.parse`
are modelled by the inductive type `Js` (no `undefined`, which cannot
occur in parsed JSON); Redis strings/zsets are modelled as Lean
functions and lists.
-/

/-! ## Canonical JSON values

`Js` models the JSON values that reach `stableStringify` in the source:
event `data` payloads read back from JSONB and parsed request bodies.
Object fields keep their insertion order, exactly as JavaScript objects
enumerate keys. -/

inductive Js where
  | null : Js
  | bool (b : Bool) : Js
  | num (n : Int) : Js
  | str (s : String) : Js
  | arr (elems : List Js) : Js
  | obj (fields : List (String × Js)) : Js

/-- Custom induction principle for the nested inductive `Js`. -/
theorem Js.myInduction {motive : Js → Prop}
    (hnull : motive .null) (hbool : ∀ b, motive (.bool b)) (hnum : ∀ n, motive (.num n))
    (hstr : ∀ s, motive (.str s))
    (harr : ∀ elems, (∀ x ∈ elems, motive x) → motive (.arr elems))
    (hobj : ∀ fields, (∀ p ∈ fields, motive p.2) → motive (.obj fields)) :
    ∀ j, motive j
  | .null => hnull
  | .bool b => hbool b
  | .num n => hnum n
  | .str s => hstr s
  | .arr elems => harr elems (fun x _ => Js.myInduction hnull hbool hnum hstr harr hobj x)
  | .obj fields => hobj fields (fun p _ => Js.myInduction hnull hbool hnum hstr harr hobj p.2)
decreasing_by
  · have := List.sizeOf_lt_of_mem (by assumption : x ∈ elems)
    simp only [Js.arr.sizeOf_spec]
    omega
  · have h1 := List.sizeOf_lt_of_mem (by assumption : p ∈ fields)
    have h2 : sizeOf p.2 < sizeOf p := by cases p; simp
    simp only [Js.obj.sizeOf_spec]
    omega

/-! ## The canonical encoder (`stableStringify`)

Mirror of the source:

```ts
function stableStringify(obj: unknown): string {
  if (obj === null || obj === undefined) return JSON.stringify(obj);
  if (typeof obj !== 'object') return JSON.stringify(obj);
  if (Array.isArray(obj)) {
    return '[' + obj.map(stableStringify).join(',') + ']';
  }
  const keys = Object.keys(obj).sort();
  const pairs = keys.map((k) => JSON.stringify(k) + ':' + stableStringify(obj[k]));
  return '{' + pairs.join(',') + '}';
}
```

`keys.sort()` followed by indexing is modelled by sorting the
(key, encoded value) pairs by key — identical output, since JavaScript
objects never contain duplicate keys.  `JSON.stringify` on primitives is
their natural textual form; string quoting models the `"` and `\`
escapes (other JSON escapes do not occur in the inputs at issue and are
orthogonal to every claim). -/

/-- Lexicographic comparison of char lists; models JavaScript's default
string comparison used by `Array.prototype.sort`. -/
def charListLe : List Char → List Char → Bool
  | [], _ => true
  | _ :: _, [] => false
  | a :: as, b :: bs => if a < b then true else if b < a then false else charListLe as bs

def keyLe (a b : String) : Bool := charListLe a.toList b.toList

def escChar (c : Char) : String :=
  if c = '"' then "\\\"" else if c = '\\' then "\\\\" else String.singleton c

/-- `JSON.stringify` of a string value. -/
def jsonQuote (s : String) : String :=
  "\"" ++ String.join (s.toList.map escChar) ++ "\""

/-- One `JSON.stringify(k) + ':' + encodedValue` pair. -/
def renderPair (p : String × String) : String := jsonQuote p.1 ++ ":" ++ p.2

/-- Stable insertion of a pair into a key-sorted list (models one step of
`keys.sort()`). -/
def insertPair {α : Type} (p : String × α) : List (String × α) → List (String × α)
  | [] => [p]
  | q :: qs => if keyLe q.1 p.1 then q :: insertPair p qs else p :: q :: qs

/-- Insertion sort of pairs by key (models `Object.keys(obj).sort()`). -/
def sortPairs {α : Type} : List (String × α) → List (String × α)
  | [] => []
  | p :: ps => insertPair p (sortPairs ps)

/-- Models `Array.prototype.join(',')`. -/
def joinComma (xs : List String) : String := String.intercalate "," xs

mutual
def stableStringify : Js → String
  | .null => "null"
  | .bool true => "true"
  | .bool false => "false"
  | .num n => toString n
  | .str s => jsonQuote s
  | .arr elems => "[" ++ joinComma (stringifyElems elems) ++ "]"
  | .obj fields =>
      "\x7b" ++ joinComma ((sortPairs (stringifyFields fields)).map renderPair) ++ "\x7d"

def stringifyElems : List Js → List String
  | [] => []
  | x :: xs => stableStringify x :: stringifyElems xs

def stringifyFields : List (String × Js) → List (String × String)
  | [] => []
  | (k, v) :: rest => (k, stableStringify v) :: stringifyFields rest
end

/-- Fingerprint of a request body, middleware/idempotency.ts:
`sha256(stableStringify(body ?? null))`.  An absent (`undefined`) body is
modelled as `none` and normalized to `null` by `?? null`. -/
def hashRequestBody (H : String → String) (body : Option Js) : String :=
  H (stableStringify (body.getD Js.null))

/-! ### Ordering facts about the key sort -/

theorem charListLe_total : ∀ as bs, charListLe as bs = true ∨ charListLe bs as = true := by
  intro as
  induction as with
  | nil => intro bs; left; cases bs <;> rfl
  | cons a as ih =>
    intro bs
    cases bs with
    | nil => right; rfl
    | cons b bs =>
      by_cases hab : a < b
      · left; simp [charListLe, hab]
      · by_cases hba : b < a
        · right; simp [charListLe, hba, asymm hba]
        · rcases ih bs with h | h
          · left; simp [charListLe, hab, hba, h]
          · right; simp [charListLe, hab, hba, h]

theorem charListLe_antisymm :
    ∀ as bs, charListLe as bs = true → charListLe bs as = true → as = bs := by
  intro as
  induction as with
  | nil => intro bs _ h2; cases bs with
    | nil => rfl
    | cons b bs => simp [charListLe] at h2
  | cons a as ih =>
    intro bs h1 h2
    cases bs with
    | nil => simp [charListLe] at h1
    | cons b bs =>
      by_cases hab : a < b
      · simp [charListLe, hab, asymm hab] at h2
      · by_cases hba : b < a
        · simp [charListLe, hab, hba] at h1
        · have : a = b := le_antisymm (not_lt.mp hba) (not_lt.mp hab)
          subst this
          simp only [charListLe, lt_irrefl, if_false] at h1 h2
          rw [ih bs h1 h2]

theorem charListLe_trans :
    ∀ as bs cs, charListLe as bs = true → charListLe bs cs = true →
      charListLe as cs = true := by
  intro as
  induction as with
  | nil => intro bs cs _ _; cases cs <;> rfl
  | cons a as ih =>
    intro bs cs h1 h2
    cases bs with
    | nil => simp [charListLe] at h1
    | cons b bs =>
      cases cs with
      | nil => simp [charListLe] at h2
      | cons c cs =>
        by_cases hab : a < b <;> by_cases hbc : b < c
        · simp [charListLe, lt_trans hab hbc]
        · have hcb : c ≤ b := not_lt.mp hbc
          by_cases hcbs : c < b
          · simp [charListLe, hcbs, asymm hcbs] at h2
          · have : b = c := le_antisymm (not_lt.mp hcbs) hcb
            subst this
            simp [charListLe, hab]
        · have : a = b := by
            by_cases hba : b < a
            · simp [charListLe, hab, hba] at h1
            · exact le_antisymm (not_lt.mp hba) (not_lt.mp hab)
          subst this
          simp [charListLe, hbc]
        · have hba : ¬ b < a := by
            intro hba; simp [charListLe, hab, hba] at h1
          have hcb : ¬ c < b := by
            intro hcb; simp [charListLe, hbc, hcb] at h2
          have : a = b := le_antisymm (not_lt.mp hba) (not_lt.mp hab)
          subst this
          have : a = c := le_antisymm (not_lt.mp hcb) (not_lt.mp hbc)
          subst this
          simp only [charListLe, lt_irrefl, if_false] at h1 h2 ⊢
          exact ih bs cs h1 h2

theorem string_ext {a b : String} (h : a.data = b.data) : a = b := by
  cases a; cases b; exact congrArg String.mk h

theorem keyLe_total (a b : String) : keyLe a b = true ∨ keyLe b a = true :=
  charListLe_total a.toList b.toList

theorem keyLe_antisymm {a b : String} (h1 : keyLe a b = true) (h2 : keyLe b a = true) :
    a = b :=
  string_ext (charListLe_antisymm a.toList b.toList h1 h2)

theorem keyLe_trans {a b c : String} (h1 : keyLe a b = true) (h2 : keyLe b c = true) :
    keyLe a c = true :=
  charListLe_trans a.toList b.toList c.toList h1 h2

/-! ### The key sort permutes its input and sorts it -/

theorem insertPair_perm {α : Type} (p : String × α) (l : List (String × α)) :
    (insertPair p l).Perm (p :: l) := by
  induction l with
  | nil => exact List.Perm.refl _
  | cons q qs ih =>
    by_cases h : keyLe q.1 p.1
    · simp only [insertPair, h, if_true]
      exact ((ih.cons q).trans (List.Perm.swap p q qs))
    · simp only [insertPair, h, if_false]
      exact List.Perm.refl _

theorem sortPairs_perm {α : Type} (l : List (String × α)) : (sortPairs l).Perm l := by
  induction l with
  | nil => exact List.Perm.refl _
  | cons p ps ih =>
    exact (insertPair_perm p (sortPairs ps)).trans (ih.cons p)

/-- The (non-strict) ordering relation on pairs used by the sort. -/
def pairLe {α : Type} (p q : String × α) : Prop := keyLe p.1 q.1 = true

/-- The strict version used to compare sorted duplicate-free lists. -/
def pairLt {α : Type} (p q : String × α) : Prop := keyLe p.1 q.1 = true ∧ p.1 ≠ q.1

instance pairLtAntisymm {α : Type} : IsAntisymm (String × α) pairLt where
  antisymm _ _ h1 h2 := absurd (keyLe_antisymm h1.1 h2.1) h1.2

theorem insertPair_sorted {α : Type} (p : String × α) {l : List (String × α)}
    (hs : l.Sorted pairLe) : (insertPair p l).Sorted pairLe := by
  induction l with
  | nil => simp [insertPair, List.Sorted]
  | cons q qs ih =>
    rcases List.pairwise_cons.mp hs with ⟨hq, hqs⟩
    by_cases hqp : keyLe q.1 p.1
    · simp only [insertPair, hqp, if_true]
      refine List.pairwise_cons.mpr ⟨?_, ih hqs⟩
      intro r hr
      rcases List.mem_cons.mp ((insertPair_perm p qs).mem_iff.mp hr) with he | he
      · subst he; exact hqp
      · exact hq r he
    · simp only [insertPair, hqp, if_false]
      refine List.pairwise_cons.mpr ⟨?_, List.pairwise_cons.mpr ⟨hq, hqs⟩⟩
      intro r hr
      have hpq : keyLe p.1 q.1 = true := by
        rcases keyLe_total p.1 q.1 with ht | ht
        · exact ht
        · exact absurd ht hqp
      rcases List.mem_cons.mp hr with he | he
      · subst he; exact hpq
      · exact keyLe_trans hpq (hq r he)

theorem sortPairs_sorted {α : Type} (l : List (String × α)) :
    (sortPairs l).Sorted pairLe := by
  induction l with
  | nil => simp [sortPairs, List.Sorted]
  | cons p ps ih => exact insertPair_sorted p ih

theorem sorted_strict_of_nodup_keys {α : Type} {l : List (String × α)}
    (hs : l.Sorted pairLe) (hn : (l.map Prod.fst).Nodup) : l.Sorted pairLt := by
  have hne : l.Pairwise (fun p q : String × α => p.1 ≠ q.1) := by
    rw [List.Nodup, List.pairwise_map] at hn
    exact hn
  exact hs.and hne

/-- Sorting is invariant under permutation of duplicate-free-keyed input:
the heart of key-order independence. -/
theorem sortPairs_congr {α : Type} {l1 l2 : List (String × α)} (hp : l1.Perm l2)
    (hn : (l1.map Prod.fst).Nodup) : sortPairs l1 = sortPairs l2 := by
  have perm12 : (sortPairs l1).Perm (sortPairs l2) :=
    ((sortPairs_perm l1).trans hp).trans (sortPairs_perm l2).symm
  have hn1 : ((sortPairs l1).map Prod.fst).Nodup :=
    (((sortPairs_perm l1).map Prod.fst).nodup_iff).mpr hn
  have hn2 : ((sortPairs l2).map Prod.fst).Nodup :=
    ((perm12.map Prod.fst).nodup_iff).mp hn1
  exact List.eq_of_perm_of_sorted perm12
    (sorted_strict_of_nodup_keys (sortPairs_sorted l1) hn1)
    (sorted_strict_of_nodup_keys (sortPairs_sorted l2) hn2)

/-! ### Key-order normalization

`normalizeKeys` recursively sorts every object's fields by key.  Two `Js`
values are "structurally equal up to object key insertion order"
exactly when their normalizations coincide.  `nodupKeysB` states that
every object in the value has duplicate-free keys — always true of
values obtained from JavaScript objects / `JSON.parse`. -/

mutual
def normalizeKeys : Js → Js
  | .null => .null
  | .bool b => .bool b
  | .num n => .num n
  | .str s => .str s
  | .arr elems => .arr (normalizeKeysElems elems)
  | .obj fields => .obj (sortPairs (normalizeKeysFields fields))

def normalizeKeysElems : List Js → List Js
  | [] => []
  | x :: xs => normalizeKeys x :: normalizeKeysElems xs

def normalizeKeysFields : List (String × Js) → List (String × Js)
  | [] => []
  | (k, v) :: rest => (k, normalizeKeys v) :: normalizeKeysFields rest
end

mutual
def nodupKeysB : Js → Bool
  | .null => true
  | .bool _ => true
  | .num _ => true
  | .str _ => true
  | .arr elems => nodupKeysElems elems
  | .obj fields => decide ((fields.map Prod.fst).Nodup) && nodupKeysFields fields

def nodupKeysElems : List Js → Bool
  | [] => true
  | x :: xs => nodupKeysB x && nodupKeysElems xs

def nodupKeysFields : List (String × Js) → Bool
  | [] => true
  | (_, v) :: rest => nodupKeysB v && nodupKeysFields rest
end

theorem stringifyElems_map (l : List Js) : stringifyElems l = l.map stableStringify := by
  induction l with
  | nil => rfl
  | cons x xs ih => simp [stringifyElems, ih]

theorem stringifyFields_map (l : List (String × Js)) :
    stringifyFields l = l.map (fun kv => (kv.1, stableStringify kv.2)) := by
  induction l with
  | nil => rfl
  | cons kv rest ih => cases kv; simp [stringifyFields, ih]

theorem map_fst_stringifyFields (l : List (String × Js)) :
    (stringifyFields l).map Prod.fst = l.map Prod.fst := by
  rw [stringifyFields_map, List.map_map]
  rfl

theorem map_fst_normalizeFields (l : List (String × Js)) :
    (normalizeKeysFields l).map Prod.fst = l.map Prod.fst := by
  induction l with
  | nil => rfl
  | cons kv rest ih => cases kv; simp [normalizeKeysFields, ih]

theorem nodupKeysElems_mem {l : List Js} (h : nodupKeysElems l = true) :
    ∀ x ∈ l, nodupKeysB x = true := by
  induction l with
  | nil => intro x hx; cases hx
  | cons y ys ih =>
    simp only [nodupKeysElems, Bool.and_eq_true] at h
    intro x hx
    rcases List.mem_cons.mp hx with h' | h'
    · subst h'; exact h.1
    · exact ih h.2 x h'

theorem nodupKeysFields_mem {l : List (String × Js)} (h : nodupKeysFields l = true) :
    ∀ p ∈ l, nodupKeysB p.2 = true := by
  induction l with
  | nil => intro p hp; cases hp
  | cons q qs ih =>
    cases q with
    | mk k v =>
      simp only [nodupKeysFields, Bool.and_eq_true] at h
      intro p hp
      rcases List.mem_cons.mp hp with h' | h'
      · subst h'; exact h.1
      · exact ih h.2 p h'

theorem stringifyElems_normalize_congr {l : List Js}
    (hih : ∀ x ∈ l, nodupKeysB x = true → stableStringify (normalizeKeys x) = stableStringify x)
    (hnd : ∀ x ∈ l, nodupKeysB x = true) :
    stringifyElems (normalizeKeysElems l) = stringifyElems l := by
  induction l with
  | nil => rfl
  | cons x xs ih =>
    simp only [normalizeKeysElems, stringifyElems]
    rw [hih x (List.mem_cons_self x xs) (hnd x (List.mem_cons_self x xs)),
      ih (fun y hy => hih y (List.mem_cons_of_mem x hy))
        (fun y hy => hnd y (List.mem_cons_of_mem x hy))]

theorem stringifyFields_normalize_congr {l : List (String × Js)}
    (hih : ∀ p ∈ l, nodupKeysB p.2 = true →
      stableStringify (normalizeKeys p.2) = stableStringify p.2)
    (hnd : ∀ p ∈ l, nodupKeysB p.2 = true) :
    stringifyFields (normalizeKeysFields l) = stringifyFields l := by
  induction l with
  | nil => rfl
  | cons kv rest ih =>
    cases kv with
    | mk k v =>
      simp only [normalizeKeysFields, stringifyFields]
      rw [hih (k, v) (List.mem_cons_self _ rest) (hnd (k, v) (List.mem_cons_self _ rest)),
        ih (fun p hp => hih p (List.mem_cons_of_mem _ hp))
          (fun p hp => hnd p (List.mem_cons_of_mem _ hp))]

/-- Encoding is invariant under key-order normalization. -/
theorem stableStringify_normalize :
    ∀ j, nodupKeysB j = true → stableStringify (normalizeKeys j) = stableStringify j := by
  intro j
  induction j using Js.myInduction with
  | hnull => intro _; rfl
  | hbool b => intro _; rfl
  | hnum n => intro _; rfl
  | hstr s => intro _; rfl
  | harr elems ih =>
    intro h
    simp only [normalizeKeys, stableStringify]
    rw [stringifyElems_normalize_congr ih (nodupKeysElems_mem h)]
  | hobj fields ih =>
    intro h
    simp only [nodupKeysB, Bool.and_eq_true, decide_eq_true_eq] at h
    simp only [normalizeKeys, stableStringify]
    have hcongr : stringifyFields (normalizeKeysFields fields) = stringifyFields fields :=
      stringifyFields_normalize_congr ih (nodupKeysFields_mem h.2)
    have hperm :
        (stringifyFields (sortPairs (normalizeKeysFields fields))).Perm
          (stringifyFields fields) := by
      rw [← hcongr, stringifyFields_map, stringifyFields_map]
      exact List.Perm.map _ (sortPairs_perm (normalizeKeysFields fields))
    have hnodup :
        ((stringifyFields (sortPairs (normalizeKeysFields fields))).map Prod.fst).Nodup := by
      rw [map_fst_stringifyFields]
      have hp1 : ((sortPairs (normalizeKeysFields fields)).map Prod.fst).Perm
          ((normalizeKeysFields fields).map Prod.fst) :=
        List.Perm.map _ (sortPairs_perm (normalizeKeysFields fields))
      rw [map_fst_normalizeFields] at hp1
      exact hp1.nodup_iff.mpr h.1
    rw [sortPairs_congr hperm hnodup]

/-! ## Event ledger (eventlog service)

The ledger state for one fixed `(aggregateId, aggregateType)` pair is the
list of that aggregate's rows in insertion order; for states produced by
`appendEvent` this coincides with ascending `version` order, i.e. with
what `getEventsByAggregate` returns (`ORDER BY version`).  The `SELECT …
ORDER BY version DESC LIMIT 1` read is the last element of the list.
SHA-256 is abstracted as a parameter `H : String → String`; the `id`
(`uuid()`) and `occurredAt` (`new Date().toISOString()`) oracles are
inputs of the append command. -/

structure Actor where
  id : String
  role : String
deriving DecidableEq

structure EventRec where
  id : String
  type : String
  aggregateId : String
  aggregateType : String
  version : Nat
  occurredAt : String
  actor : Actor
  data : Js
  previousHash : Option String
  hash : String

/-- The hash payload object literal `{ eventType, data, previousHash,
occurredAt }` of `computeEventHash` (field insertion order as written in
the source; `stableStringify` sorts the keys). -/
def eventPayload (eventType : String) (data : Js) (previousHash : Option String)
    (occurredAt : String) : Js :=
  Js.obj [("eventType", Js.str eventType), ("data", data),
          ("previousHash", (previousHash.map Js.str).getD Js.null),
          ("occurredAt", Js.str occurredAt)]

/-- `computeEventHash`: SHA-256 (abstracted as `H`) of the canonical
encoding of the four-field payload. -/
def computeEventHash (H : String → String) (eventType : String) (data : Js)
    (previousHash : Option String) (occurredAt : String) : String :=
  H (stableStringify (eventPayload eventType data previousHash occurredAt))

/-- Input of one `appendEvent` call: the caller-supplied command fields
plus the `uuid()` / clock readings drawn during the call. -/
structure AppendCmd where
  type : String
  aggregateId : String
  aggregateType : String
  actor : Actor
  data : Js
  id : String
  occurredAt : String

/-- The row built and inserted by one successful `appendEvent` iteration:
reads the aggregate's highest-version row, chains `previousHash` from its
hash (`lastEvent[0]?.hash ?? null`), takes `version :=
(lastEvent[0]?.version ?? 0) + 1`, and computes the new hash. -/
def appendEvent (H : String → String) (st : List EventRec) (c : AppendCmd) : EventRec :=
  let lastEvent := st.getLast?
  let previousHash := lastEvent.map (·.hash)
  let version := (match lastEvent with | none => 0 | some e => e.version) + 1
  let hash := computeEventHash H c.type c.data previousHash c.occurredAt
  { id := c.id, type := c.type, aggregateId := c.aggregateId,
    aggregateType := c.aggregateType, version := version,
    occurredAt := c.occurredAt, actor := c.actor, data := c.data,
    previousHash := previousHash, hash := hash }

/-- Runs a sequence of successful appends against a starting state. -/
def runAppends (H : String → String) (st : List EventRec) : List AppendCmd → List EventRec
  | [] => st
  | c :: cs => runAppends H (st ++ [appendEvent H st c]) cs

/-- The ledger built by appending each command in turn to an empty
aggregate. -/
def buildChain (H : String → String) (cs : List AppendCmd) : List EventRec :=
  runAppends H [] cs

/-- Result of `verifyHashChain`: `{ valid: true }` or
`{ valid: false, brokenAtVersion }`. -/
inductive VerifyResult where
  | valid : VerifyResult
  | broken (version : Nat) : VerifyResult
deriving DecidableEq

/-- The verification loop.  `expectedPrev` is `null` at index 0 and the
previous element's `hash` afterwards; each event's hash is recomputed
from its own fields and compared. -/
def verifyLoop (H : String → String) (expectedPrev : Option String) :
    List EventRec → VerifyResult
  | [] => .valid
  | e :: rest =>
    if e.previousHash ≠ expectedPrev then .broken e.version
    else if e.hash ≠ computeEventHash H e.type e.data e.previousHash e.occurredAt then
      .broken e.version
    else verifyLoop H (some e.hash) rest

/-- `verifyHashChain(aggregateId, aggregateType)` on the aggregate's
ordered event list. -/
def verifyHashChain (H : String → String) (events : List EventRec) : VerifyResult :=
  verifyLoop H none events

/-- Invariant of a well-formed chain segment: starting from expected
previous hash `prev` and version `v`, links and versions are consecutive
and every stored hash matches its recomputation. -/
def WellChained (H : String → String) : Option String → Nat → List EventRec → Prop
  | _, _, [] => True
  | prev, v, e :: rest =>
      e.previousHash = prev ∧ e.version = v ∧
      e.hash = computeEventHash H e.type e.data e.previousHash e.occurredAt ∧
      WellChained H (some e.hash) (v + 1) rest

theorem wellChained_snoc (H : String → String) :
    ∀ (st : List EventRec) (prev : Option String) (v : Nat) (e : EventRec),
      WellChained H prev v st →
      e.previousHash = (match st.getLast? with | none => prev | some l => some l.hash) →
      e.version = (match st.getLast? with | none => v | some l => l.version + 1) →
      e.hash = computeEventHash H e.type e.data e.previousHash e.occurredAt →
      WellChained H prev v (st ++ [e]) := by
  intro st
  induction st with
  | nil =>
    intro prev v e _ h1 h2 h3
    exact ⟨h1, h2, h3, trivial⟩
  | cons x rest ih =>
    intro prev v e hwc h1 h2 h3
    obtain ⟨hx1, hx2, hx3, hrest⟩ := hwc
    refine ⟨hx1, hx2, hx3, ?_⟩
    cases rest with
    | nil =>
      simp only [List.getLast?_singleton] at h1 h2
      exact ⟨h1, by rw [h2, hx2], h3, trivial⟩
    | cons y ys =>
      rw [List.getLast?_cons_cons] at h1 h2
      cases hll : (y :: ys).getLast? with
      | none =>
        have : (y :: ys) ≠ [] := List.cons_ne_nil y ys
        rw [← List.getLast?_isSome, hll] at this
        simp at this
      | some l =>
        rw [hll] at h1 h2
        refine ih (some x.hash) (v + 1) e hrest ?_ ?_ h3
        · rw [hll]; exact h1
        · rw [hll]; exact h2

theorem appendEvent_previousHash (H : String → String) (st : List EventRec) (c : AppendCmd) :
    (appendEvent H st c).previousHash =
      (match st.getLast? with | none => none | some l => some l.hash) := by
  cases h : st.getLast? <;> simp [appendEvent, h]

theorem appendEvent_version (H : String → String) (st : List EventRec) (c : AppendCmd) :
    (appendEvent H st c).version =
      (match st.getLast? with | none => 1 | some l => l.version + 1) := by
  cases h : st.getLast? <;> simp [appendEvent, h]

theorem appendEvent_hash (H : String → String) (st : List EventRec) (c : AppendCmd) :
    (appendEvent H st c).hash =
      computeEventHash H (appendEvent H st c).type (appendEvent H st c).data
        (appendEvent H st c).previousHash (appendEvent H st c).occurredAt := by
  simp [appendEvent]

theorem runAppends_wellChained (H : String → String) :
    ∀ (cs : List AppendCmd) (st : List EventRec),
      WellChained H none 1 st → WellChained H none 1 (runAppends H st cs) := by
  intro cs
  induction cs with
  | nil => intro st h; exact h
  | cons c cs ih =>
    intro st h
    refine ih (st ++ [appendEvent H st c]) ?_
    refine wellChained_snoc H st none 1 (appendEvent H st c) h ?_ ?_
      (appendEvent_hash H st c)
    · rw [appendEvent_previousHash]
    · rw [appendEvent_version]

theorem buildChain_wellChained (H : String → String) (cs : List AppendCmd) :
    WellChained H none 1 (buildChain H cs) :=
  runAppends_wellChained H cs [] trivial

theorem wellChained_get_version (H : String → String) :
    ∀ (l : List EventRec) (prev : Option String) (v : Nat),
      WellChained H prev v l → ∀ i (hi : i < l.length), (l.get ⟨i, hi⟩).version = v + i := by
  intro l
  induction l with
  | nil => intro prev v _ i hi; cases hi
  | cons e rest ih =>
    intro prev v h i hi
    obtain ⟨_, h2, _, hrest⟩ := h
    cases i with
    | zero => simpa using h2
    | succ j =>
      have := ih (some e.hash) (v + 1) hrest j (by simpa using hi)
      simp only [List.get] at this ⊢
      omega

theorem wellChained_get_hash (H : String → String) :
    ∀ (l : List EventRec) (prev : Option String) (v : Nat),
      WellChained H prev v l → ∀ i (hi : i < l.length),
        (l.get ⟨i, hi⟩).hash =
          computeEventHash H (l.get ⟨i, hi⟩).type (l.get ⟨i, hi⟩).data
            (l.get ⟨i, hi⟩).previousHash (l.get ⟨i, hi⟩).occurredAt := by
  intro l
  induction l with
  | nil => intro prev v _ i hi; cases hi
  | cons e rest ih =>
    intro prev v h i hi
    obtain ⟨_, _, h3, hrest⟩ := h
    cases i with
    | zero => simpa using h3
    | succ j => exact ih (some e.hash) (v + 1) hrest j (by simpa using hi)

theorem wellChained_get_prevHash_zero (H : String → String) :
    ∀ (l : List EventRec) (prev : Option String) (v : Nat),
      WellChained H prev v l → ∀ h0 : 0 < l.length, (l.get ⟨0, h0⟩).previousHash = prev := by
  intro l
  induction l with
  | nil => intro prev v _ h0; cases h0
  | cons e rest _ =>
    intro prev v h _
    exact h.1

theorem wellChained_get_prevHash_succ (H : String → String) :
    ∀ (l : List EventRec) (prev : Option String) (v : Nat),
      WellChained H prev v l → ∀ i (hi : i + 1 < l.length),
        (l.get ⟨i + 1, hi⟩).previousHash =
          some ((l.get ⟨i, by omega⟩).hash) := by
  intro l
  induction l with
  | nil => intro prev v _ i hi; cases hi
  | cons e rest ih =>
    intro prev v h i hi
    obtain ⟨_, _, _, hrest⟩ := h
    cases i with
    | zero =>
      have h0 : 0 < rest.length := by simpa using hi
      have := wellChained_get_prevHash_zero H rest (some e.hash) (v + 1) hrest h0
      simpa using this
    | succ j =>
      have hj : j + 1 < rest.length := by simpa using hi
      have := ih (some e.hash) (v + 1) hrest j hj
      simpa using this

theorem verifyLoop_valid (H : String → String) :
    ∀ (l : List EventRec) (prev : Option String) (v : Nat),
      WellChained H prev v l → verifyLoop H prev l = .valid := by
  intro l
  induction l with
  | nil => intro prev v _; rfl
  | cons e rest ih =>
    intro prev v h
    obtain ⟨h1, _, h3, hrest⟩ := h
    simp only [verifyLoop]
    rw [if_neg (show ¬ e.previousHash ≠ prev by simp [h1])]
    rw [if_neg (show ¬ e.hash ≠
      computeEventHash H e.type e.data e.previousHash e.occurredAt by simp [h3])]
    exact ih (some e.hash) (v + 1) hrest

/-- Tampering model: overwrite the stored `data` of the event at index
`i`, leaving every other stored field and every other row unchanged. -/
def setData : List EventRec → Nat → Js → List EventRec
  | [], _, _ => []
  | e :: rest, 0, d => { e with data := d } :: rest
  | e :: rest, n + 1, d => e :: setData rest n d

theorem verifyLoop_tamper (H : String → String) :
    ∀ (l : List EventRec) (prev : Option String) (v : Nat) (i : Nat) (hi : i < l.length)
      (d : Js),
      WellChained H prev v l →
      computeEventHash H (l.get ⟨i, hi⟩).type d (l.get ⟨i, hi⟩).previousHash
          (l.get ⟨i, hi⟩).occurredAt ≠ (l.get ⟨i, hi⟩).hash →
      verifyLoop H prev (setData l i d) = .broken (v + i) := by
  intro l
  induction l with
  | nil => intro prev v i hi; cases hi
  | cons e rest ih =>
    intro prev v i hi d h hne
    obtain ⟨h1, h2, h3, hrest⟩ := h
    cases i with
    | zero =>
      simp only [List.get] at hne
      simp only [setData, verifyLoop]
      rw [if_neg (show ¬ ({ e with data := d } : EventRec).previousHash ≠ prev by
        simp [h1])]
      rw [if_pos (show ({ e with data := d } : EventRec).hash ≠
          computeEventHash H ({ e with data := d } : EventRec).type
            ({ e with data := d } : EventRec).data
            ({ e with data := d } : EventRec).previousHash
            ({ e with data := d } : EventRec).occurredAt by
        simpa using hne.symm)]
      simp [h2]
    | succ j =>
      have hj : j < rest.length := by simpa using hi
      simp only [setData, verifyLoop]
      rw [if_neg (show ¬ e.previousHash ≠ prev by simp [h1])]
      rw [if_neg (show ¬ e.hash ≠
        computeEventHash H e.type e.data e.previousHash e.occurredAt by simp [h3])]
      have := ih (some e.hash) (v + 1) j hj d hrest (by simpa using hne)
      rw [this]
      congr 1
      omega

/-- Two hash payloads with the same type, previous hash and timestamp but
differently-encoded data encode to different canonical strings. -/
theorem eventPayload_stringify_inj_data (t o : String) (p : Option String) (d d' : Js)
    (h : stableStringify (eventPayload t d p o) = stableStringify (eventPayload t d' p o)) :
    stableStringify d = stableStringify d' := by
  have h2 := congrArg String.data h
  simp only [eventPayload, stableStringify, stringifyFields, sortPairs, insertPair,
    joinComma, renderPair,
    (by decide : keyLe "occurredAt" "previousHash" = true),
    (by decide : keyLe "occurredAt" "data" = false),
    (by decide : keyLe "data" "eventType" = true),
    (by decide : keyLe "occurredAt" "eventType" = false),
    if_true, if_false, Bool.false_eq_true, ite_false, ite_true,
    List.map_cons, List.map_nil,
    String.intercalate, String.intercalate.go,
    String.data_append, List.append_assoc] at h2
  simp only [List.append_right_inj, List.append_left_inj] at h2
  cases hd : stableStringify d
  cases hd' : stableStringify d'
  simp_all

theorem computeEventHash_ne_of_data_ne (H : String → String)
    (hinj : Function.Injective H) {t o : String} {p : Option String} {d d' : Js}
    (hd : stableStringify d ≠ stableStringify d') :
    computeEventHash H t d p o ≠ computeEventHash H t d' p o := by
  intro h
  exact hd (eventPayload_stringify_inj_data t o p d d' (hinj h))

/-- Demo inputs used by witnesses. -/
def demoActor : Actor := { id := "u1", role := "customer" }

def demoAppendCmd : AppendCmd :=
  { type := "order.created", aggregateId := "o1", aggregateType := "order",
    actor := demoActor, data := Js.obj [("a", Js.str "x")],
    id := "evt-1", occurredAt := "2026-01-01T00:00:00.000Z" }

/-- C1: for a fixed `(aggregateId, aggregateType)`, the events produced by
`appendEvent` have versions `1, 2, …` (gapless, ascending), the first
event's `previousHash` is null, every later event's `previousHash` is the
hash of the event with the preceding version, and every event's `hash` is
the SHA-256 digest (abstracted as `H`) of the canonical encoding of
`{eventType, data, previousHash, occurredAt}`. -/
theorem appendEvent_chain_invariant (H : String → String) (cs : List AppendCmd) :
    (∀ i (hi : i < (buildChain H cs).length),
      ((buildChain H cs).get ⟨i, hi⟩).version = i + 1) ∧
    (∀ h0 : 0 < (buildChain H cs).length,
      ((buildChain H cs).get ⟨0, h0⟩).previousHash = none) ∧
    (∀ i (hi : i + 1 < (buildChain H cs).length),
      ((buildChain H cs).get ⟨i + 1, hi⟩).previousHash =
        some (((buildChain H cs).get ⟨i, by omega⟩).hash)) ∧
    (∀ i (hi : i < (buildChain H cs).length),
      ((buildChain H cs).get ⟨i, hi⟩).hash =
        computeEventHash H ((buildChain H cs).get ⟨i, hi⟩).type
          ((buildChain H cs).get ⟨i, hi⟩).data
          ((buildChain H cs).get ⟨i, hi⟩).previousHash
          ((buildChain H cs).get ⟨i, hi⟩).occurredAt) := by
  have hwc := buildChain_wellChained H cs
  refine ⟨?_, ?_, ?_, ?_⟩
  · intro i hi
    rw [wellChained_get_version H (buildChain H cs) none 1 hwc i hi]
    omega
  · intro h0
    exact wellChained_get_prevHash_zero H (buildChain H cs) none 1 hwc h0
  · intro i hi
    exact wellChained_get_prevHash_succ H (buildChain H cs) none 1 hwc i hi
  · intro i hi
    exact wellChained_get_hash H (buildChain H cs) none 1 hwc i hi

theorem appendEvent_chain_invariant_witness :
    ((buildChain (fun s => s) [demoAppendCmd]).get
        ⟨0, (by decide : 0 < (buildChain (fun s => s) [demoAppendCmd]).length)⟩).version
      = 0 + 1 ∧
    ((buildChain (fun s => s) [demoAppendCmd]).get
        ⟨0, (by decide : 0 < (buildChain (fun s => s) [demoAppendCmd]).length)⟩).previousHash
      = none :=
  ⟨(appendEvent_chain_invariant (fun s => s) [demoAppendCmd]).1 0 _,
   (appendEvent_chain_invariant (fun s => s) [demoAppendCmd]).2.1 _⟩

/-- C2: for any sequence of appends to one aggregate, `verifyHashChain`
reports the chain valid; and if the stored `data` of the event at index
`i` is overwritten with any value whose canonical encoding differs (and
the hash `H` is injective, the collision-freeness assumed of SHA-256),
`verifyHashChain` reports `brokenAtVersion = i + 1`, that event's own
version. -/
theorem verifyHashChain_correct (H : String → String) (hinj : Function.Injective H)
    (cs : List AppendCmd) :
    verifyHashChain H (buildChain H cs) = .valid ∧
    (∀ i (hi : i < (buildChain H cs).length) (d : Js),
      stableStringify d ≠ stableStringify (((buildChain H cs).get ⟨i, hi⟩).data) →
      verifyHashChain H (setData (buildChain H cs) i d) =
        .broken (((buildChain H cs).get ⟨i, hi⟩).version)) := by
  have hwc := buildChain_wellChained H cs
  constructor
  · exact verifyLoop_valid H (buildChain H cs) none 1 hwc
  · intro i hi d hd
    have hver := wellChained_get_version H (buildChain H cs) none 1 hwc i hi
    have hhash := wellChained_get_hash H (buildChain H cs) none 1 hwc i hi
    have hne : computeEventHash H ((buildChain H cs).get ⟨i, hi⟩).type d
        ((buildChain H cs).get ⟨i, hi⟩).previousHash
        ((buildChain H cs).get ⟨i, hi⟩).occurredAt ≠
        ((buildChain H cs).get ⟨i, hi⟩).hash := by
      rw [hhash]
      exact computeEventHash_ne_of_data_ne H hinj hd
    have := verifyLoop_tamper H (buildChain H cs) none 1 i hi d hwc hne
    rw [verifyHashChain, this, hver]

theorem verifyHashChain_correct_witness :
    verifyHashChain (fun s => s) (buildChain (fun s => s) [demoAppendCmd]) = .valid ∧
    verifyHashChain (fun s => s)
        (setData (buildChain (fun s => s) [demoAppendCmd]) 0 (Js.str "tampered")) =
      .broken (((buildChain (fun s => s) [demoAppendCmd]).get
        ⟨0, (by decide : 0 < (buildChain (fun s => s) [demoAppendCmd]).length)⟩).version) :=
  ⟨(verifyHashChain_correct (fun s => s) (fun _ _ h => h) [demoAppendCmd]).1,
   (verifyHashChain_correct (fun s => s) (fun _ _ h => h) [demoAppendCmd]).2 0 _
     (Js.str "tampered") (by decide)⟩

/-- C10 counterexample: a field bound to `null` and an absent field do
not encode identically — `{"a": null}` and `{}` encode to different
strings, so the encoder does not identify null with absence. -/
theorem stableStringify_null_absent_differ :
    stableStringify (Js.obj [("a", Js.null)]) ≠ stableStringify (Js.obj []) := by decide

/-- C10 (amended): the canonical encoder is total and deterministic, and
for every pair of well-formed values (duplicate-free object keys, as
JavaScript objects guarantee) that are structurally equal up to object
key insertion order — i.e. equal after recursively key-sorting every
object — it produces the same output string; object keys are sorted
lexicographically, array order is preserved and primitives use their
natural textual form by definition of `stableStringify`.  Null and
absence are identified only for the request-body top level, where
`hashRequestBody` normalizes an absent body to `null` (`body ?? null`);
inside an object a null-valued field and an absent field encode
differently. -/
theorem stableStringify_canonical (a b : Js)
    (ha : nodupKeysB a = true) (hb : nodupKeysB b = true)
    (h : normalizeKeys a = normalizeKeys b) :
    stableStringify a = stableStringify b ∧
    (∀ H : String → String, hashRequestBody H none = hashRequestBody H (some Js.null)) := by
  constructor
  · rw [← stableStringify_normalize a ha, ← stableStringify_normalize b hb, h]
  · intro H
    rfl

theorem stableStringify_canonical_witness :
    stableStringify (Js.obj [("b", Js.str "2"), ("a", Js.arr [Js.null, Js.bool true])]) =
      stableStringify (Js.obj [("a", Js.arr [Js.null, Js.bool true]), ("b", Js.str "2")]) :=
  (stableStringify_canonical _ _ (by decide) (by decide) (by rfl)).1

/-! ## Bounded retry of `appendEvent` (optimistic concurrency)

Control-flow model of the `for (let attempt = 1; attempt <= MAX_APPEND_RETRIES; …)`
loop.  Each iteration performs the read-compute-insert sequence; whether
the insert succeeds or throws an error is decided by the environment
`env : Nat → Option DbErr` (the store's response on that attempt:
`none` = insert accepted, `some e` = insert rejected with error `e`). -/

/-- A store error as observed by the catch block: an optional SQLSTATE
code and a message. -/
structure DbErr where
  code : Option String
  message : String
deriving DecidableEq

def MAX_APPEND_RETRIES : Nat := 3

/-- `message.includes(needle)` on char lists. -/
def isStartOf : List Char → List Char → Bool
  | [], _ => true
  | _ :: _, [] => false
  | a :: as, b :: bs => a == b && isStartOf as bs

def occursIn (needle : List Char) : List Char → Bool
  | [] => isStartOf needle []
  | c :: rest => isStartOf needle (c :: rest) || occursIn needle rest

def stringIncludes (hay needle : String) : Bool := occursIn needle.toList hay.toList

/-- `isAggregateVersionConflict`: true when the store reports the
PostgreSQL unique-violation SQLSTATE `23505` or the error message
mentions the `event_log_aggregate_version` constraint. -/
def isAggregateVersionConflict (e : DbErr) : Bool :=
  e.code == some "23505" || stringIncludes e.message "event_log_aggregate_version"

/-- Observable outcome of one `appendEvent` call. -/
inductive AppendResult where
  | ok (attempt : Nat) : AppendResult
  | err (e : DbErr) : AppendResult
deriving DecidableEq

/-- The retry loop from attempt number `attempt` on; retries exactly when
`isAggregateVersionConflict(err) && attempt < MAX_APPEND_RETRIES`,
otherwise rethrows. -/
def appendAttempts (env : Nat → Option DbErr) (attempt : Nat) : AppendResult :=
  match env attempt with
  | none => .ok attempt
  | some e =>
    if isAggregateVersionConflict e && decide (attempt < MAX_APPEND_RETRIES) then
      appendAttempts env (attempt + 1)
    else .err e
termination_by MAX_APPEND_RETRIES + 1 - attempt
decreasing_by
  rename_i h
  simp only [Bool.and_eq_true, decide_eq_true_eq] at h
  omega

/-- One whole `appendEvent` call (the loop starts at attempt 1).  The
`throw new Error('Failed to append event after retries')` statement after
the loop is unreachable: the third iteration never retries, so the loop
always returns or rethrows — hence the result type above. -/
def appendEventRun (env : Nat → Option DbErr) : AppendResult :=
  appendAttempts env 1

/-- C8: `appendEvent` makes at most `MAX_APPEND_RETRIES = 3` attempts;
it returns success only if some attempt's insert was accepted and every
earlier attempt failed with the version-uniqueness conflict (so it never
reports success without having inserted, and retries only on conflict);
if every allowed attempt conflicts, or any attempt fails with a
non-conflict error, the error is thrown to the caller; and every run
terminates in one of those two outcomes (no silent drop, no infinite
loop). -/
theorem appendEvent_bounded_retry (env : Nat → Option DbErr) :
    (∀ k, appendEventRun env = .ok k →
      env k = none ∧ 1 ≤ k ∧ k ≤ MAX_APPEND_RETRIES ∧
      ∀ j, 1 ≤ j → j < k → ∃ e, env j = some e ∧ isAggregateVersionConflict e = true) ∧
    ((∀ j, 1 ≤ j → j ≤ MAX_APPEND_RETRIES →
        ∃ e, env j = some e ∧ isAggregateVersionConflict e = true) →
      ∃ e, appendEventRun env = .err e) ∧
    (∀ e k, env k = some e → 1 ≤ k → k ≤ MAX_APPEND_RETRIES →
      isAggregateVersionConflict e = false →
      (∀ j, 1 ≤ j → j < k → ∃ e', env j = some e' ∧ isAggregateVersionConflict e' = true) →
      appendEventRun env = .err e) ∧
    ((∃ k, appendEventRun env = .ok k) ∨ (∃ e, appendEventRun env = .err e)) := by
  have hmax : MAX_APPEND_RETRIES = 3 := rfl
  rcases h1 : env 1 with _ | e1
  · have hr : appendEventRun env = .ok 1 := by
      simp [appendEventRun, appendAttempts, h1]
    refine ⟨?_, ?_, ?_, Or.inl ⟨1, hr⟩⟩
    · intro k hk
      rw [hr] at hk
      obtain rfl : (1 : Nat) = k := by injection hk
      exact ⟨h1, le_refl 1, by omega, fun j hj1 hj2 => absurd hj2 (by omega)⟩
    · intro hall
      obtain ⟨e, he, _⟩ := hall 1 (by omega) (by omega)
      rw [h1] at he
      cases he
    · intro e k henv hk1 hk3 _ hprev
      rcases Nat.lt_or_ge 1 k with hk | hk
      · obtain ⟨e', he', _⟩ := hprev 1 (by omega) hk
        rw [h1] at he'
        cases he'
      · obtain rfl : k = 1 := by omega
        rw [h1] at henv
        cases henv
  · cases hc1 : isAggregateVersionConflict e1 with
    | false =>
      have hr : appendEventRun env = .err e1 := by
        simp [appendEventRun, appendAttempts, h1, hc1]
      refine ⟨?_, ?_, ?_, Or.inr ⟨e1, hr⟩⟩
      · intro k hk
        rw [hr] at hk
        cases hk
      · intro _
        exact ⟨e1, hr⟩
      · intro e k henv hk1 hk3 hnc hprev
        rcases Nat.lt_or_ge 1 k with hk | hk
        · obtain ⟨e', he', hce'⟩ := hprev 1 (by omega) hk
          rw [h1] at he'
          obtain rfl : e1 = e' := by injection he'
          rw [hc1] at hce'
          cases hce'
        · obtain rfl : k = 1 := by omega
          rw [h1] at henv
          obtain rfl : e1 = e := by injection henv
          exact hr
    | true =>
      rcases h2 : env 2 with _ | e2
      · have hr : appendEventRun env = .ok 2 := by
          simp [appendEventRun, appendAttempts, h1, hc1, h2, MAX_APPEND_RETRIES]
        refine ⟨?_, ?_, ?_, Or.inl ⟨2, hr⟩⟩
        · intro k hk
          rw [hr] at hk
          obtain rfl : (2 : Nat) = k := by injection hk
          refine ⟨h2, by omega, by omega, fun j hj1 hj2 => ?_⟩
          obtain rfl : j = 1 := by omega
          exact ⟨e1, h1, hc1⟩
        · intro hall
          obtain ⟨e, he, _⟩ := hall 2 (by omega) (by omega)
          rw [h2] at he
          cases he
        · intro e k henv hk1 hk3 hnc hprev
          rcases Nat.lt_or_ge 2 k with hk | hk
          · obtain ⟨e', he', _⟩ := hprev 2 (by omega) hk
            rw [h2] at he'
            cases he'
          · rcases Nat.lt_or_ge 1 k with hk' | hk'
            · obtain rfl : k = 2 := by omega
              rw [h2] at henv
              cases henv
            · obtain rfl : k = 1 := by omega
              rw [h1] at henv
              obtain rfl : e1 = e := by injection henv
              rw [hc1] at hnc
              cases hnc
      · cases hc2 : isAggregateVersionConflict e2 with
        | false =>
          have hr : appendEventRun env = .err e2 := by
            simp [appendEventRun, appendAttempts, h1, hc1, h2, hc2, MAX_APPEND_RETRIES]
          refine ⟨?_, ?_, ?_, Or.inr ⟨e2, hr⟩⟩
          · intro k hk
            rw [hr] at hk
            cases hk
          · intro _
            exact ⟨e2, hr⟩
          · intro e k henv hk1 hk3 hnc hprev
            rcases Nat.lt_or_ge 2 k with hk | hk
            · obtain ⟨e', he', hce'⟩ := hprev 2 (by omega) hk
              rw [h2] at he'
              obtain rfl : e2 = e' := by injection he'
              rw [hc2] at hce'
              cases hce'
            · rcases Nat.lt_or_ge 1 k with hk' | hk'
              · obtain rfl : k = 2 := by omega
                rw [h2] at henv
                obtain rfl : e2 = e := by injection henv
                exact hr
              · obtain rfl : k = 1 := by omega
                rw [h1] at henv
                obtain rfl : e1 = e := by injection henv
                rw [hc1] at hnc
                cases hnc
        | true =>
          rcases h3 : env 3 with _ | e3
          · have hr : appendEventRun env = .ok 3 := by
              simp [appendEventRun, appendAttempts, h1, hc1, h2, hc2, h3,
                MAX_APPEND_RETRIES]
            refine ⟨?_, ?_, ?_, Or.inl ⟨3, hr⟩⟩
            · intro k hk
              rw [hr] at hk
              obtain rfl : (3 : Nat) = k := by injection hk
              refine ⟨h3, by omega, by omega, fun j hj1 hj2 => ?_⟩
              rcases Nat.lt_or_ge 1 j with hj | hj
              · obtain rfl : j = 2 := by omega
                exact ⟨e2, h2, hc2⟩
              · obtain rfl : j = 1 := by omega
                exact ⟨e1, h1, hc1⟩
            · intro hall
              obtain ⟨e, he, _⟩ := hall 3 (by omega) (by omega)
              rw [h3] at he
              cases he
            · intro e k henv hk1 hk3 hnc hprev
              rw [hmax] at hk3
              rcases Nat.lt_or_ge 2 k with hk | hk
              · obtain rfl : k = 3 := by omega
                rw [h3] at henv
                cases henv
              · rcases Nat.lt_or_ge 1 k with hk' | hk'
                · obtain rfl : k = 2 := by omega
                  rw [h2] at henv
                  obtain rfl : e2 = e := by injection henv
                  rw [hc2] at hnc
                  cases hnc
                · obtain rfl : k = 1 := by omega
                  rw [h1] at henv
                  obtain rfl : e1 = e := by injection henv
                  rw [hc1] at hnc
                  cases hnc
          · have hr : appendEventRun env = .err e3 := by
              simp [appendEventRun, appendAttempts, h1, hc1, h2, hc2, h3,
                MAX_APPEND_RETRIES]
            refine ⟨?_, ?_, ?_, Or.inr ⟨e3, hr⟩⟩
            · intro k hk
              rw [hr] at hk
              cases hk
            · intro _
              exact ⟨e3, hr⟩
            · intro e k henv hk1 hk3 hnc hprev
              rw [hmax] at hk3
              rcases Nat.lt_or_ge 2 k with hk | hk
              · obtain rfl : k = 3 := by omega
                rw [h3] at henv
                obtain rfl : e3 = e := by injection henv
                exact hr
              · rcases Nat.lt_or_ge 1 k with hk' | hk'
                · obtain rfl : k = 2 := by omega
                  rw [h2] at henv
                  obtain rfl : e2 = e := by injection henv
                  rw [hc2] at hnc
                  cases hnc
                · obtain rfl : k = 1 := by omega
                  rw [h1] at henv
                  obtain rfl : e1 = e := by injection henv
                  rw [hc1] at hnc
                  cases hnc

/-- A unique-violation error as PostgreSQL reports it. -/
def demoConflictErr : DbErr :=
  { code := some "23505",
    message := "duplicate key value violates unique constraint event_log_aggregate_version" }

/-- Retry environment: the first insert hits a version conflict, the
second is accepted. -/
def demoRetryEnv : Nat → Option DbErr :=
  fun k => if k = 1 then some demoConflictErr else none

theorem appendEvent_bounded_retry_witness : demoRetryEnv 2 = none :=
  ((appendEvent_bounded_retry demoRetryEnv).1 2
    (by simp [appendEventRun, appendAttempts, demoRetryEnv, MAX_APPEND_RETRIES,
      (by decide : isAggregateVersionConflict demoConflictErr = true)])).1

/-! ## Command idempotency gate (middleware/idempotency.ts)

Model of `handleIdempotency` after the atomic `SET … EX … NX` failed
because a record already exists for the storage key: the middleware
fetches the record and dispatches on it.  `GateOutcome.proceed` is
`next()` (the command executes); `reject` is an immediate 409 response;
`replay` is the stored status/body resent with the
`X-Idempotent-Replay: true` header (for a stored 204 the body is not
resent — both are `replay` here). -/

inductive IdemState where
  | in_flight : IdemState
  | done : IdemState
deriving DecidableEq

/-- A `RedisIdempotencyEntry`. -/
structure IdemEntry where
  state : IdemState
  requestHash : String
  statusCode : Option Nat
  body : Js
  createdAt : Nat

inductive GateOutcome where
  | proceed : GateOutcome
  | reject (status : Nat) (error : String) : GateOutcome
  | replay (status : Nat) (body : Js) : GateOutcome

/-- Dispatch on the fetched record (`parseEntry(await redis.get(key))`):
`none` models a missing or unparseable record (the middleware falls
through to `next()`); otherwise the three checks run in source order,
and a `done` record with no stored status falls through to `next()`. -/
def dispatchExisting (requestHash : String) : Option IdemEntry → GateOutcome
  | none => .proceed
  | some existing =>
    if existing.requestHash ≠ requestHash then
      .reject 409 "Idempotency key reuse with different request body"
    else if existing.state = .in_flight then
      .reject 409 "Duplicate request in progress"
    else
      match existing.state, existing.statusCode with
      | .done, some c => .replay c existing.body
      | _, _ => .proceed

/-- The `done` record written by the `res.on('finish')` handler for a
success-class status: it always stores the numeric status code and the
captured body. -/
def finalizeEntry (requestHash : String) (status : Nat) (body : Js) (now : Nat) :
    IdemEntry :=
  { state := .done, requestHash := requestHash, statusCode := some status,
    body := body, createdAt := now }

/-- C7: when the set-if-absent fails and a record is fetched, the outcome
is determined by the record: a fingerprint mismatch is rejected with the
token-reuse conflict; an `in_flight` record (matching fingerprint) is
rejected as a duplicate in progress; a `done` record (matching
fingerprint) is replayed verbatim — its stored status and body — and the
command is not executed; in particular any record finalized by the gate
itself replays exactly the status and body it stored. -/
theorem handleIdempotency_existing_record (h : String) (e : IdemEntry) :
    (e.requestHash ≠ h →
      dispatchExisting h (some e) =
        .reject 409 "Idempotency key reuse with different request body") ∧
    (e.requestHash = h → e.state = .in_flight →
      dispatchExisting h (some e) = .reject 409 "Duplicate request in progress") ∧
    (∀ c, e.requestHash = h → e.state = .done → e.statusCode = some c →
      dispatchExisting h (some e) = .replay c e.body ∧
      dispatchExisting h (some e) ≠ .proceed) ∧
    (∀ status body now,
      dispatchExisting h (some (finalizeEntry h status body now)) =
        .replay status body) := by
  refine ⟨?_, ?_, ?_, ?_⟩
  · intro hne
    simp [dispatchExisting, hne]
  · intro heq hif
    simp [dispatchExisting, heq, hif]
  · intro c heq hdone hcode
    constructor
    · simp [dispatchExisting, heq, hdone, hcode]
    · simp [dispatchExisting, heq, hdone, hcode]
  · intro status body now
    simp [dispatchExisting, finalizeEntry]

theorem handleIdempotency_existing_record_witness :
    dispatchExisting "h1"
        (some { state := .done, requestHash := "h1", statusCode := some 201,
                body := Js.obj [("orderId", Js.str "o1")], createdAt := 0 }) =
      .replay 201 (Js.obj [("orderId", Js.str "o1")]) :=
  (((handleIdempotency_existing_record "h1"
      { state := .done, requestHash := "h1", statusCode := some 201,
        body := Js.obj [("orderId", Js.str "o1")], createdAt := 0 }).2.2.1)
    201 rfl rfl rfl).1

/-! ## Job claim registry (jobboard service)

Redis state restricted to the three key families the service uses:
`openfood:claim:<orderId>` string keys (`claimOf`, with their TTLs in
`claimTtl`), the `openfood:jobboard` sorted set (`board`, members in
score order), and `openfood:job:<orderId>` detail strings (`detailOf`).
Each Redis command is atomic; a whole `claimJob` call is modelled as one
step because its only contended decision is the initial `SETNX` — the
subsequent `EXPIRE`/`ZREM`/`DEL` only touch keys the winner now owns. -/

structure RegistryState where
  claimOf : String → Option String
  claimTtl : String → Option Nat
  board : List String
  detailOf : String → Option String

/-- `claimJob(orderId, workerId)`: `SETNX` on the claim key; if the key
exists, reread it — same worker succeeds idempotently, another worker is
rejected with no state change; on a fresh claim, set a 3600 s expiry on
the marker, remove the order from the board zset and delete its detail. -/
def claimJob (st : RegistryState) (orderId workerId : String) : Bool × RegistryState :=
  match st.claimOf orderId with
  | some existingClaimer =>
      if existingClaimer = workerId then (true, st) else (false, st)
  | none =>
      (true,
       { claimOf := fun k => if k = orderId then some workerId else st.claimOf k,
         claimTtl := fun k => if k = orderId then some 3600 else st.claimTtl k,
         board := st.board.erase orderId,
         detailOf := fun k => if k = orderId then none else st.detailOf k })

/-- `getAvailableJobs` (the board listing): the board members whose
detail key is present and parseable. -/
def getAvailableJobs (st : RegistryState) : List String :=
  st.board.filter (fun id => (st.detailOf id).isSome)

/-- A serialization of `K` claim attempts on one order (any interleaving
of concurrent attempts resolves to some such order, the `SETNX` being
the single serialization point). -/
def runClaims (st : RegistryState) (orderId : String) :
    List String → List Bool × RegistryState
  | [] => ([], st)
  | w :: ws =>
      let r := claimJob st orderId w
      let rs := runClaims r.2 orderId ws
      (r.1 :: rs.1, rs.2)

theorem runClaims_all_false (orderId c : String) :
    ∀ (ws : List String) (st : RegistryState), st.claimOf orderId = some c →
      (∀ w ∈ ws, w ≠ c) →
      runClaims st orderId ws = (List.replicate ws.length false, st) := by
  intro ws
  induction ws with
  | nil => intro st _ _; rfl
  | cons w ws ih =>
    intro st hc hne
    have hstep : claimJob st orderId w = (false, st) := by
      simp only [claimJob, hc]
      rw [if_neg (fun hcw => hne w (List.mem_cons_self w ws) hcw.symm)]
    simp only [runClaims, hstep]
    rw [ih st hc (fun x hx => hne x (List.mem_cons_of_mem w hx))]
    rfl

/-- C6: for every order the claim marker admits at most one winner: a
marker held by a different worker causes `claimJob` to return `false`
with the state unchanged; a marker held by the same worker returns
`true` idempotently; a fresh claim returns `true`, sets the marker to
the worker with a 3600 s expiry, deletes the detail and removes the
order from the board, so the order is absent from the visible listing;
and a serialized sequence of `K ≥ 1` attempts by distinct workers on an
unclaimed order yields exactly one `true` and `K - 1` `false`s. -/
theorem claimJob_exactly_one_winner (st : RegistryState) (orderId w : String) :
    (∀ w', st.claimOf orderId = some w' → w' ≠ w →
      claimJob st orderId w = (false, st)) ∧
    (st.claimOf orderId = some w → claimJob st orderId w = (true, st)) ∧
    (st.claimOf orderId = none →
      (claimJob st orderId w).1 = true ∧
      (claimJob st orderId w).2.claimOf orderId = some w ∧
      (claimJob st orderId w).2.claimTtl orderId = some 3600 ∧
      (claimJob st orderId w).2.detailOf orderId = none ∧
      orderId ∉ getAvailableJobs (claimJob st orderId w).2) ∧
    (∀ ws : List String, st.claimOf orderId = none → (w :: ws).Nodup →
      ((runClaims st orderId (w :: ws)).1.count true = 1 ∧
       (runClaims st orderId (w :: ws)).1.count false = ws.length)) := by
  refine ⟨?_, ?_, ?_, ?_⟩
  · intro w' hc hne
    simp only [claimJob, hc]
    rw [if_neg hne]
  · intro hc
    simp [claimJob, hc]
  · intro hc
    refine ⟨by simp [claimJob, hc], by simp [claimJob, hc], by simp [claimJob, hc],
      by simp [claimJob, hc], ?_⟩
    intro hmem
    have := List.of_mem_filter hmem
    simp only [claimJob, hc] at this
    simp at this
  · intro ws hc hnd
    rcases List.nodup_cons.mp hnd with ⟨hwmem, hwsnd⟩
    have hstep : claimJob st orderId w =
        (true,
         { claimOf := fun k => if k = orderId then some w else st.claimOf k,
           claimTtl := fun k => if k = orderId then some 3600 else st.claimTtl k,
           board := st.board.erase orderId,
           detailOf := fun k => if k = orderId then none else st.detailOf k }) := by
      simp [claimJob, hc]
    have hrest := runClaims_all_false orderId w ws
      (claimJob st orderId w).2 (by rw [hstep]; simp)
      (fun x hx hxw => hwmem (hxw ▸ hx))
    simp only [runClaims]
    rw [hrest, hstep]
    constructor
    · simp [List.count_cons, List.count_replicate]
    · simp [List.count_cons, List.count_replicate]

/-- Board state with one posted, unclaimed job. -/
def demoRegistry : RegistryState :=
  { claimOf := fun _ => none, claimTtl := fun _ => none,
    board := ["o1"],
    detailOf := fun k => if k = "o1" then some "job-detail" else none }

theorem claimJob_exactly_one_winner_witness :
    (runClaims demoRegistry "o1" ["w1", "w2"]).1.count true = 1 ∧
    (runClaims demoRegistry "o1" ["w1", "w2"]).1.count false = 1 :=
  ((claimJob_exactly_one_winner demoRegistry "o1" "w1").2.2.2 ["w2"] rfl (by decide))

/-! ## Order state machine: statuses and transition table
(shared/constants `ORDER_STATUS_TRANSITIONS`) -/

inductive OrderStatus where
  | created
  | payment_held
  | restaurant_accepted
  | restaurant_rejected
  | posted_to_board
  | worker_claimed
  | picked_up
  | delivered
  | settled
  | cancelled
  | disputed
  | dispute_resolved
deriving DecidableEq, Fintype

def ORDER_STATUS_TRANSITIONS : OrderStatus → List OrderStatus
  | .created => [.payment_held, .cancelled]
  | .payment_held => [.restaurant_accepted, .restaurant_rejected, .cancelled]
  | .restaurant_accepted => [.posted_to_board, .cancelled]
  | .restaurant_rejected => [.cancelled]
  | .posted_to_board => [.worker_claimed, .cancelled]
  | .worker_claimed => [.picked_up, .posted_to_board, .cancelled]
  | .picked_up => [.delivered, .cancelled]
  | .delivered => [.settled, .disputed]
  | .settled => [.disputed]
  | .cancelled => []
  | .disputed => [.dispute_resolved]
  | .dispute_resolved => [.settled]

/-- `canTransition(from, to)`: membership in the allowed-target list
(`allowed?.includes(to) ?? false`; the table is total, so the `?? false`
branch is unreachable). -/
def canTransition (src dst : OrderStatus) : Bool :=
  (ORDER_STATUS_TRANSITIONS src).contains dst

/-! ## Settlement engine (escrow service `settlePayment`)

State restricted to the rows `settlePayment` touches for one order: the
order row, its escrow row, the `pool_state` singleton, the pool ledger,
the worker's daily-earnings rows and the worker row's delivery counter.
Simulated transfer ids and timestamps are omitted (random strings that
no claim mentions).  Money is in paise (integers); `Math.floor` on the
rate arithmetic is `Int.fdiv`. -/

inductive EscrowStatus where
  | authorized
  | settled
  | refunded
deriving DecidableEq

structure OrderRow where
  subtotal : Int
  deliveryFee : Int
  tip : Int
  status : OrderStatus
  workerId : Option String
  restaurantId : String
deriving DecidableEq

structure EscrowRow where
  status : EscrowStatus
  amount : Int
  restaurantPayout : Option Int
  workerPayout : Option Int
  coopFee : Option Int
  poolContribution : Option Int
  tipAmount : Option Int
deriving DecidableEq

structure LedgerLine where
  transactionType : String
  amount : Int
  balanceAfter : Int
  orderId : String
  description : String
deriving DecidableEq

structure EarningsRow where
  workerId : String
  date : String
  deliveriesCompleted : Int
  deliveryFees : Int
  tips : Int
  totalEarnings : Int
deriving DecidableEq

structure SettleState where
  order : Option OrderRow
  escrow : Option EscrowRow
  poolBalance : Int
  totalContributions : Int
  poolLedger : List LedgerLine
  dailyEarnings : List EarningsRow
  workerTotalDeliveries : Int
deriving DecidableEq

structure Split where
  restaurantPayout : Int
  workerPayout : Int
  coopFee : Int
  poolContribution : Int
  tip : Int
deriving DecidableEq

/-- Hard-coded in the source: `const poolContributionRate = 10`. -/
def poolContributionRate : Int := 10

/-- Hard-coded in the source: `const infraFeeRate = 10`. -/
def infraFeeRate : Int := 10

def poolContributionOf (deliveryFee : Int) : Int :=
  Int.fdiv (deliveryFee * poolContributionRate) 100

def coopFeeOf (deliveryFee : Int) : Int :=
  Int.fdiv (deliveryFee * infraFeeRate) 100

def workerDeliveryPayOf (deliveryFee : Int) : Int :=
  deliveryFee - poolContributionOf deliveryFee - coopFeeOf deliveryFee

/-- The five derived payout values exactly as `settlePayment` computes
them (rates are the hard-coded constants above). -/
def settleSplit (o : OrderRow) : Split :=
  { restaurantPayout := o.subtotal,
    workerPayout := workerDeliveryPayOf o.deliveryFee + o.tip,
    coopFee := coopFeeOf o.deliveryFee,
    poolContribution := poolContributionOf o.deliveryFee,
    tip := o.tip }

/-- Governed parameters as maintained in `system_parameters` by the
governance module (`pool_contribution_rate`, `infra_fee_rate`). -/
structure SystemParams where
  poolContributionRate : Int
  infraFeeRate : Int
deriving DecidableEq

/-- The payout split as the specification states it: rates read from the
governed parameter values (this is also the formula `createOrder` uses
for the customer-facing transparency breakdown). -/
def settleSplitGoverned (p : SystemParams) (o : OrderRow) : Split :=
  { restaurantPayout := o.subtotal,
    workerPayout :=
      (o.deliveryFee - Int.fdiv (o.deliveryFee * p.poolContributionRate) 100 -
        Int.fdiv (o.deliveryFee * p.infraFeeRate) 100) + o.tip,
    coopFee := Int.fdiv (o.deliveryFee * p.infraFeeRate) 100,
    poolContribution := Int.fdiv (o.deliveryFee * p.poolContributionRate) 100,
    tip := o.tip }

/-- `UPDATE escrow_records SET status='settled', …payout columns…`. -/
def updateEscrowWrite (split : Split) (st : SettleState) : SettleState :=
  { st with escrow := st.escrow.map (fun esc =>
      { esc with status := .settled,
                 restaurantPayout := some split.restaurantPayout,
                 workerPayout := some split.workerPayout,
                 coopFee := some split.coopFee,
                 poolContribution := some split.poolContribution,
                 tipAmount := some split.tip }) }

/-- `UPDATE orders SET status='settled', …`. -/
def updateOrderWrite (st : SettleState) : SettleState :=
  { st with order := st.order.map (fun o => { o with status := .settled }) }

/-- `UPDATE pool_state SET balance = balance + …, total_contributions = …`. -/
def updatePoolStateWrite (split : Split) (st : SettleState) : SettleState :=
  { st with poolBalance := st.poolBalance + split.poolContribution,
            totalContributions := st.totalContributions + split.poolContribution }

/-- `INSERT INTO pool_ledger …` — `balanceAfter` is the pool balance read
back after the preceding increment. -/
def insertPoolLedgerWrite (split : Split) (orderId : String) (st : SettleState) :
    SettleState :=
  { st with poolLedger := st.poolLedger ++
      [{ transactionType := "contribution", amount := split.poolContribution,
         balanceAfter := st.poolBalance, orderId := orderId,
         description := "Pool contribution from order " ++ orderId }] }

/-- The `INSERT … ON CONFLICT (worker_id, date) DO UPDATE` upsert. -/
def upsertEarnings (w today : String) (pay tip payout : Int) :
    List EarningsRow → List EarningsRow
  | [] => [{ workerId := w, date := today, deliveriesCompleted := 1,
             deliveryFees := pay, tips := tip, totalEarnings := payout }]
  | r :: rest =>
      if r.workerId = w ∧ r.date = today then
        { r with deliveriesCompleted := r.deliveriesCompleted + 1,
                 deliveryFees := r.deliveryFees + pay,
                 tips := r.tips + tip,
                 totalEarnings := r.totalEarnings + payout } :: rest
      else r :: upsertEarnings w today pay tip payout rest

def upsertDailyEarningsWrite (o : OrderRow) (w today : String) (st : SettleState) :
    SettleState :=
  { st with
      dailyEarnings :=
        upsertEarnings w today (workerDeliveryPayOf o.deliveryFee) o.tip
          (workerDeliveryPayOf o.deliveryFee + o.tip) st.dailyEarnings }

/-- `UPDATE workers SET total_deliveries = total_deliveries + 1 …`. -/
def bumpWorkerDeliveriesWrite (st : SettleState) : SettleState :=
  { st with workerTotalDeliveries := st.workerTotalDeliveries + 1 }

/-- The six sequential store writes of `settlePayment`, in source order.
They are separate awaited statements — no `db.transaction` wraps them. -/
def settleWrites (o : OrderRow) (w orderId today : String) :
    List (SettleState → SettleState) :=
  [updateEscrowWrite (settleSplit o), updateOrderWrite,
   updatePoolStateWrite (settleSplit o), insertPoolLedgerWrite (settleSplit o) orderId,
   upsertDailyEarningsWrite o w today, bumpWorkerDeliveriesWrite]

def applyWrites (ws : List (SettleState → SettleState)) (st : SettleState) : SettleState :=
  ws.foldl (fun s f => f s) st

/-- State after the first `k` writes have been applied and the rest have
not (the observable state if the call fails between write `k` and write
`k + 1`). -/
def applyPrefix (ws : List (SettleState → SettleState)) (k : Nat) (st : SettleState) :
    SettleState :=
  applyWrites (ws.take k) st

inductive SettleErr where
  | orderNotFound
  | noWorkerAssigned
  | escrowNotFound
  | cannotSettleInStatus (s : EscrowStatus)
deriving DecidableEq

/-- `settlePayment(orderId)`: guard reads, then the split computation and
the write sequence; errors leave the state untouched. -/
def settlePayment (st : SettleState) (orderId today : String) :
    Except SettleErr Split × SettleState :=
  match st.order with
  | none => (.error .orderNotFound, st)
  | some o =>
    match o.workerId with
    | none => (.error .noWorkerAssigned, st)
    | some w =>
      match st.escrow with
      | none => (.error .escrowNotFound, st)
      | some esc =>
        if esc.status ≠ .authorized then (.error (.cannotSettleInStatus esc.status), st)
        else (.ok (settleSplit o), applyWrites (settleWrites o w orderId today) st)

def demoOrder : OrderRow :=
  { subtotal := 50000, deliveryFee := 100, tip := 2000, status := .delivered,
    workerId := some "w1", restaurantId := "r1" }

def demoEscrow : EscrowRow :=
  { status := .authorized, amount := 52100, restaurantPayout := none,
    workerPayout := none, coopFee := none, poolContribution := none,
    tipAmount := none }

def demoSettleState : SettleState :=
  { order := some demoOrder, escrow := some demoEscrow, poolBalance := 0,
    totalContributions := 0, poolLedger := [], dailyEarnings := [],
    workerTotalDeliveries := 0 }

/-- C3 counterexample: after one successful settlement, a second
`settlePayment` call for the same order does not return the previously
computed split — it throws `Cannot settle escrow in status settled`
(the guard accepts only `authorized`). -/
theorem settlePayment_not_idempotent :
    (settlePayment (settlePayment demoSettleState "o1" "2026-01-01").2
        "o1" "2026-01-01").1 =
      Except.error (SettleErr.cannotSettleInStatus .settled) := by rfl

/-- C3 (amended): a second `settle` call for an already-settled order is
rejected with the `Cannot settle escrow in status settled` error and
performs no side effects, so the monetary side effects happen at most
once per order; but the previously computed split is not returned —
repetition is an error, not an idempotent replay. -/
theorem settlePayment_second_call_rejected (st : SettleState)
    (orderId today today2 : String) :
    (∀ o w esc, st.order = some o → o.workerId = some w → st.escrow = some esc →
      esc.status = .settled →
      settlePayment st orderId today =
        (.error (.cannotSettleInStatus .settled), st)) ∧
    (∀ r st1, settlePayment st orderId today = (.ok r, st1) →
      settlePayment st1 orderId today2 =
        (.error (.cannotSettleInStatus .settled), st1)) := by
  constructor
  · intro o w esc ho hw hesc hstatus
    simp [settlePayment, ho, hw, hesc, hstatus]
  · intro r st1 h
    rcases ho : st.order with _ | o
    · simp [settlePayment, ho] at h
    rcases hw : o.workerId with _ | w
    · simp [settlePayment, ho, hw] at h
    rcases hesc : st.escrow with _ | esc
    · simp [settlePayment, ho, hw, hesc] at h
    by_cases hst : esc.status = .authorized
    · simp only [settlePayment, ho, hw, hesc, hst] at h
      rw [if_neg (by simp)] at h
      obtain ⟨-, rfl⟩ := Prod.mk.injEq .. ▸ And.intro (congrArg Prod.fst h)
        (congrArg Prod.snd h)
      simp [settlePayment, applyWrites, settleWrites, updateEscrowWrite,
        updateOrderWrite, updatePoolStateWrite, insertPoolLedgerWrite,
        upsertDailyEarningsWrite, bumpWorkerDeliveriesWrite, ho, hw, hesc]
    · simp only [settlePayment, ho, hw, hesc] at h
      rw [if_pos (by simpa using hst)] at h
      simp at h

theorem settlePayment_second_call_rejected_witness :
    settlePayment
        (applyWrites (settleWrites demoOrder "w1" "o1" "2026-01-01") demoSettleState)
        "o1" "2026-01-02" =
      (.error (.cannotSettleInStatus .settled),
       applyWrites (settleWrites demoOrder "w1" "o1" "2026-01-01") demoSettleState) :=
  (settlePayment_second_call_rejected demoSettleState "o1" "2026-01-01" "2026-01-02").2
    (settleSplit demoOrder)
    (applyWrites (settleWrites demoOrder "w1" "o1" "2026-01-01") demoSettleState) rfl

/-- C4: the split formulas and the exact fee conservation hold for the
rates the code uses — but those rates are the hard-coded constants
`poolContributionRate = 10` and `infraFeeRate = 10`; `settlePayment`
never reads the governed parameter values that the governance module
maintains and that `createOrder`'s transparency breakdown displays.
With the governed pool rate voted to 20, the code still pays the pool
`floor(100·10/100) = 10` on a 100-paise fee where the claim requires
`floor(100·20/100) = 20`. -/
theorem settlePayment_ignores_governed_rates :
    (settleSplit demoOrder).poolContribution = 10 ∧
    (settleSplitGoverned { poolContributionRate := 20, infraFeeRate := 10 }
        demoOrder).poolContribution = 20 ∧
    (settleSplit demoOrder).poolContribution ≠
      (settleSplitGoverned { poolContributionRate := 20, infraFeeRate := 10 }
        demoOrder).poolContribution ∧
    (∀ o : OrderRow,
      settleSplit o = settleSplitGoverned { poolContributionRate := 10, infraFeeRate := 10 } o) ∧
    (∀ o : OrderRow,
      (settleSplit o).poolContribution + (settleSplit o).coopFee +
          workerDeliveryPayOf o.deliveryFee = o.deliveryFee ∧
      (settleSplit o).workerPayout = workerDeliveryPayOf o.deliveryFee + o.tip ∧
      (settleSplit o).restaurantPayout = o.subtotal) := by
  refine ⟨by decide, by decide, by decide, ?_, ?_⟩
  · intro o
    simp [settleSplit, settleSplitGoverned, poolContributionOf, coopFeeOf,
      workerDeliveryPayOf, poolContributionRate, infraFeeRate]
  · intro o
    refine ⟨?_, rfl, rfl⟩
    simp only [settleSplit, workerDeliveryPayOf]
    ring

def demoPartialSettle : SettleState :=
  applyPrefix (settleWrites demoOrder "w1" "o1" "2026-01-01") 1 demoSettleState

/-- C5 counterexample: if the call dies right after the first of the six
sequential writes, the observable state has the escrow marked settled
with the split stored, while the order status, pool balance, pool ledger
and daily earnings are untouched — a state that is neither the initial
one nor the fully settled one, contradicting the claimed all-or-nothing
atomicity. -/
theorem settlePayment_not_atomic :
    demoPartialSettle ≠ demoSettleState ∧
    demoPartialSettle ≠ (settlePayment demoSettleState "o1" "2026-01-01").2 ∧
    demoPartialSettle.escrow.map EscrowRow.status = some .settled ∧
    demoPartialSettle.order.map OrderRow.status = some .delivered ∧
    demoPartialSettle.poolBalance = 0 := by
  refine ⟨by decide, by decide, by rfl, by rfl, by rfl⟩

/-- C5 (amended): the settlement write is not one atomic unit but six
sequential single-row statements, in order: escrow update (derived
values + status settled), order status update, pool balance increment,
pool ledger insert, daily-earnings upsert, worker delivery counter.
Applied in full they produce exactly the claimed combined effects; a
failure between two writes leaves the earlier prefix applied — e.g.
failing after the first write leaves the escrow settled while the order
status and pool are unchanged. -/
theorem settlePayment_sequential_writes (st : SettleState) (o : OrderRow)
    (esc : EscrowRow) (w orderId today : String)
    (ho : st.order = some o) (hw : o.workerId = some w) (hesc : st.escrow = some esc)
    (hst : esc.status = .authorized) :
    settlePayment st orderId today =
      (.ok (settleSplit o), applyWrites (settleWrites o w orderId today) st) ∧
    (applyWrites (settleWrites o w orderId today) st).escrow =
      some { esc with status := .settled,
                      restaurantPayout := some (settleSplit o).restaurantPayout,
                      workerPayout := some (settleSplit o).workerPayout,
                      coopFee := some (settleSplit o).coopFee,
                      poolContribution := some (settleSplit o).poolContribution,
                      tipAmount := some (settleSplit o).tip } ∧
    (applyWrites (settleWrites o w orderId today) st).order =
      some { o with status := .settled } ∧
    (applyWrites (settleWrites o w orderId today) st).poolBalance =
      st.poolBalance + (settleSplit o).poolContribution ∧
    (applyWrites (settleWrites o w orderId today) st).poolLedger =
      st.poolLedger ++
        [{ transactionType := "contribution",
           amount := (settleSplit o).poolContribution,
           balanceAfter := st.poolBalance + (settleSplit o).poolContribution,
           orderId := orderId,
           description := "Pool contribution from order " ++ orderId }] ∧
    (applyWrites (settleWrites o w orderId today) st).dailyEarnings =
      upsertEarnings w today (workerDeliveryPayOf o.deliveryFee) o.tip
        (workerDeliveryPayOf o.deliveryFee + o.tip) st.dailyEarnings ∧
    (applyWrites (settleWrites o w orderId today) st).workerTotalDeliveries =
      st.workerTotalDeliveries + 1 ∧
    (applyPrefix (settleWrites o w orderId today) 1 st).order = st.order ∧
    (applyPrefix (settleWrites o w orderId today) 1 st).poolBalance = st.poolBalance ∧
    (applyPrefix (settleWrites o w orderId today) 1 st).escrow =
      some { esc with status := .settled,
                      restaurantPayout := some (settleSplit o).restaurantPayout,
                      workerPayout := some (settleSplit o).workerPayout,
                      coopFee := some (settleSplit o).coopFee,
                      poolContribution := some (settleSplit o).poolContribution,
                      tipAmount := some (settleSplit o).tip } := by
  refine ⟨?_, ?_, ?_, ?_, ?_, ?_, ?_, ?_, ?_, ?_⟩ <;>
    simp [settlePayment, applyWrites, applyPrefix, settleWrites, updateEscrowWrite,
      updateOrderWrite, updatePoolStateWrite, insertPoolLedgerWrite,
      upsertDailyEarningsWrite, bumpWorkerDeliveriesWrite, ho, hw, hesc, hst]

theorem settlePayment_sequential_writes_witness :
    settlePayment demoSettleState "o1" "2026-01-01" =
      (.ok (settleSplit demoOrder),
       applyWrites (settleWrites demoOrder "w1" "o1" "2026-01-01") demoSettleState) :=
  (settlePayment_sequential_writes demoSettleState demoOrder demoEscrow "w1" "o1"
    "2026-01-01" rfl rfl rfl rfl).1

/-! ## Order service status-mutating operations

Status path of each operation: the current status is loaded, and the
operation either rejects or writes a new status (authorization checks,
timestamps, refunds, board publication and ledger emission are
orthogonal to the status path and omitted). -/

inductive OrderErr where
  | notFound
  | notAuthorized
  | illegalTransition (current target : OrderStatus)
  | jobAlreadyClaimed
deriving DecidableEq

/-- `restaurantAccept`: guards `canTransition(status, 'restaurant_accepted')`,
then writes `restaurant_accepted`. -/
def restaurantAccept (s : OrderStatus) : Except OrderErr OrderStatus :=
  if canTransition s .restaurant_accepted then .ok .restaurant_accepted
  else .error (.illegalTransition s .restaurant_accepted)

/-- `restaurantReject`: guards target `restaurant_rejected` — but the
update then writes status `cancelled` (with the rejection recorded as
the cancellation reason). -/
def restaurantReject (s : OrderStatus) : Except OrderErr OrderStatus :=
  if canTransition s .restaurant_rejected then .ok .cancelled
  else .error (.illegalTransition s .restaurant_rejected)

/-- `postToJobBoard`: loads the order and restaurant, then performs the
`posted_to_board` status update without consulting the transition table
at all (its only in-repo caller is `restaurantAccept`, which has just
written `restaurant_accepted`). -/
def postToJobBoard (_s : OrderStatus) : Except OrderErr OrderStatus :=
  .ok .posted_to_board

/-- `workerClaim`: guards the transition, then requires the claim
registry to succeed (`claimOk` abstracts `jobBoardService.claimJob`),
and only then writes `worker_claimed`. -/
def workerClaim (s : OrderStatus) (claimOk : Bool) : Except OrderErr OrderStatus :=
  if canTransition s .worker_claimed then
    if claimOk then .ok .worker_claimed else .error .jobAlreadyClaimed
  else .error (.illegalTransition s .worker_claimed)

def workerPickup (s : OrderStatus) : Except OrderErr OrderStatus :=
  if canTransition s .picked_up then .ok .picked_up
  else .error (.illegalTransition s .picked_up)

def confirmDelivery (s : OrderStatus) : Except OrderErr OrderStatus :=
  if canTransition s .delivered then .ok .delivered
  else .error (.illegalTransition s .delivered)

def cancelOrder (s : OrderStatus) : Except OrderErr OrderStatus :=
  if canTransition s .cancelled then .ok .cancelled
  else .error (.illegalTransition s .cancelled)

/-- `createOrder` inserts the order with status `created` and then
unconditionally updates it to `payment_held` after the escrow hold. -/
def createOrderStatusWrites : OrderStatus × OrderStatus := (.created, .payment_held)

deriving instance DecidableEq for Except

/-- C9 counterexample: `postToJobBoard` mutates the order status without
consulting the transition table — called on an order in a status from
which `posted_to_board` is not a legal target (e.g. `cancelled`,
terminal), it still writes `posted_to_board`. -/
theorem postToJobBoard_unchecked :
    postToJobBoard .cancelled = .ok .posted_to_board ∧
    canTransition .cancelled .posted_to_board = false := by decide

/-- C9 (amended): the externally triggered transition operations
(`restaurantAccept`, `restaurantReject`, `workerClaim`, `workerPickup`,
`confirmDelivery`, `cancelOrder`) consult `canTransition` on the loaded
status and reject illegal targets before writing, and each of their
status writes follows an edge of the table (`restaurantReject` consults
the table for `restaurant_rejected` but writes `cancelled`, itself a
table edge from any status passing that check); `workerClaim` also
requires the claim registry to succeed first.  But `postToJobBoard` and
`createOrder`'s `payment_held` update write their statuses
unconditionally, relying on caller context for table conformance:
`created → payment_held` and (at `postToJobBoard`'s only call site)
`restaurant_accepted → posted_to_board` are table edges. -/
theorem orderService_checked_transitions :
    (∀ s, (canTransition s .restaurant_accepted = true →
        restaurantAccept s = .ok .restaurant_accepted) ∧
      (canTransition s .restaurant_accepted = false →
        restaurantAccept s = .error (.illegalTransition s .restaurant_accepted))) ∧
    (∀ s t, restaurantAccept s = .ok t → canTransition s t = true) ∧
    (∀ s t, restaurantReject s = .ok t →
      t = .cancelled ∧ canTransition s .restaurant_rejected = true ∧
      canTransition s .cancelled = true) ∧
    (∀ s b t, workerClaim s b = .ok t →
      t = .worker_claimed ∧ canTransition s t = true ∧ b = true) ∧
    (∀ s b, canTransition s .worker_claimed = true → b = false →
      workerClaim s b = .error .jobAlreadyClaimed) ∧
    (∀ s t, workerPickup s = .ok t → canTransition s t = true) ∧
    (∀ s t, confirmDelivery s = .ok t → canTransition s t = true) ∧
    (∀ s t, cancelOrder s = .ok t → canTransition s t = true) ∧
    canTransition createOrderStatusWrites.1 createOrderStatusWrites.2 = true ∧
    canTransition .restaurant_accepted .posted_to_board = true := by
  refine ⟨?_, ?_, ?_, ?_, ?_, ?_, ?_, ?_, ?_, ?_⟩ <;> decide

theorem orderService_checked_transitions_witness :
    restaurantAccept .payment_held = .ok .restaurant_accepted :=
  (orderService_checked_transitions.1 OrderStatus.payment_held).1 rfl
